import Mathlib

/-!
Verification development for the godoc-mcp server (`server.go`).

The Go code is shallowly embedded:

* Go strings are Lean `String`s; the Go standard-library string
  operations used by the code (`strings.Split`, `strings.Join`,
  `strings.HasPrefix`, `strings.TrimSpace`, `strings.Fields`,
  `strings.TrimPrefix`, `strings.Contains`) are modelled by executable
  functions on the underlying character lists, so that every definition
  evaluates inside the kernel.
* The Go map `cache map[string]cachedDoc` is modelled as an association
  list with no duplicate keys; `time.Time` timestamps are naturals
  (nanoseconds), and `time.Since(t)` is truncated subtraction `now - t`.
* The external `go doc` subprocess is a parameter of `runGoDoc`
  (an `Except` value: the captured output on success, the captured
  output plus error text on failure); the model reports whether the
  extractor was invoked.
* Go `int` is modelled as `Int` (overflow is not modelled); Go integer
  division truncates toward zero, i.e. `Int.tdiv`.  A Go runtime panic
  (division by zero, slice bounds out of range) is modelled by `none`.
-/

namespace Godoc

/-! ### Character-level models of the Go `strings` operations -/

/-- Model of `strings.Split(s, sep)` for a one-character separator,
on character lists: splitting the empty list yields one empty piece,
and each separator occurrence starts a new piece. -/
def splitOnChar (sep : Char) : List Char → List (List Char)
  | [] => [[]]
  | c :: cs =>
    if c = sep then
      [] :: splitOnChar sep cs
    else
      match splitOnChar sep cs with
      | [] => [[c]]
      | h :: t => (c :: h) :: t

/-- Model of `strings.Join(parts, sep)` for a one-character separator,
on character lists: the pieces interleaved with the separator. -/
def joinWithChar (sep : Char) : List (List Char) → List Char
  | [] => []
  | [l] => l
  | l :: ls => l ++ sep :: joinWithChar sep ls

/-- `strings.Split` on a `String`, one-character separator. -/
def goSplit (s : String) (sep : Char) : List String :=
  (splitOnChar sep s.data).map String.mk

/-- `strings.Join` on `String`s, one-character separator. -/
def goJoin (sep : Char) (parts : List String) : String :=
  String.mk (joinWithChar sep (parts.map String.data))

/-- `strings.HasPrefix(s, pre)`. -/
def goHasPrefix (s pre : String) : Bool :=
  pre.data.isPrefixOf s.data

/-- `strings.TrimPrefix(s, pre)`. -/
def goTrimPrefix (s pre : String) : String :=
  if goHasPrefix s pre then String.mk (s.data.drop pre.data.length) else s

/-- `strings.TrimSpace(s)`: remove leading and trailing whitespace. -/
def goTrimSpace (s : String) : String :=
  String.mk (((s.data.dropWhile Char.isWhitespace).reverse.dropWhile
    Char.isWhitespace).reverse)

/-- Splitting a character list at every character satisfying `p`
(pieces between consecutive split points are kept, possibly empty). -/
def splitOnPred (p : Char → Bool) : List Char → List (List Char)
  | [] => [[]]
  | c :: cs =>
    if p c then
      [] :: splitOnPred p cs
    else
      match splitOnPred p cs with
      | [] => [[c]]
      | h :: t => (c :: h) :: t

/-- `strings.Fields(s)`: the maximal runs of non-whitespace characters. -/
def goFields (s : String) : List String :=
  ((splitOnPred Char.isWhitespace s.data).filter (fun l => l ≠ [])).map String.mk

/-- Whether `needle` occurs as a contiguous sublist of `hay`. -/
def containsChars (hay needle : List Char) : Bool :=
  match hay with
  | [] => needle.isPrefixOf []
  | _ :: t => needle.isPrefixOf hay || containsChars t needle

/-- `strings.Contains(s, sub)`. -/
def goContains (s sub : String) : Bool :=
  containsChars s.data sub.data

/-! ### Constants (`server.go`, lines 19–23) -/

/-- `cacheTTL = 5 * time.Minute`, in nanoseconds. -/
def cacheTTL : Nat := 5 * 60 * 1000000000

/-- `maxCacheSize = 500`. -/
def maxCacheSize : Nat := 500

/-! ### The cache (`server.go`, lines 52–61) -/

/-- A cache entry: `cachedDoc { content string; timestamp time.Time }`. -/
structure cachedDoc where
  content : String
  timestamp : Nat
deriving DecidableEq

/-- The Go map `cache map[string]cachedDoc`, modelled as an association
list; the no-duplicate-keys invariant of a map is carried as a
hypothesis where needed. -/
abbrev Cache := List (String × cachedDoc)

/-- Map lookup `gs.cache[cacheKey]`. -/
def lookupCache : Cache → String → Option cachedDoc
  | [], _ => none
  | (k, d) :: rest, key => if k = key then some d else lookupCache rest key

/-- Map deletion `delete(gs.cache, key)`. -/
def eraseCache : Cache → String → Cache
  | [], _ => []
  | (k, d) :: rest, key =>
      if k = key then eraseCache rest key else (k, d) :: eraseCache rest key

/-- Map assignment `gs.cache[key] = d`. -/
def insertCache (c : Cache) (key : String) (d : cachedDoc) : Cache :=
  eraseCache c key ++ [(key, d)]

/-- The keys of the cache. -/
def cacheKeys (c : Cache) : List String :=
  c.map Prod.fst

/-- The cache-key derivation of `runGoDoc` (`server.go`, line 308):
`cacheKey := workingDir + "|" + strings.Join(args, "|")`. -/
def cacheKey (workingDir : String) (args : List String) : String :=
  workingDir ++ "|" ++ goJoin '|' args

/-- The eviction scan of `runGoDoc` (`server.go`, lines 339–346): fold
over the entries keeping `(oldestKey, oldestTime)`, replacing the
accumulator whenever `oldestKey == "" || v.timestamp.Before(oldestTime)`.
The Go `for k, v := range` order over a map is arbitrary; the model
fixes the association-list order, which is one admissible order. -/
def scanOldest : Cache → String × Nat → String × Nat
  | [], acc => acc
  | (k, d) :: rest, acc =>
    scanOldest rest
      (if acc.1 = "" ∨ d.timestamp < acc.2 then (k, d.timestamp) else acc)

/-- The key selected by the eviction scan (initial accumulator: the Go
zero values `""` and time zero). -/
def findOldestKey (c : Cache) : String :=
  (scanOldest c ("", 0)).1

/-- Lines 338–348 of `server.go`: if the cache is at capacity, evict
the entry selected by the scan. -/
def evictIfFull (c : Cache) : Cache :=
  if maxCacheSize ≤ c.length then eraseCache c (findOldestKey c) else c

/-! ### Error formatting (`server.go`, lines 357–379) -/

/-- The captured outcome of a failed `go doc` invocation: the combined
output and the error's text. -/
structure GoDocFail where
  output : String
  errText : String
deriving DecidableEq

/-- `formatGoDocError` (`server.go`, lines 357–379): classify the
failure by substring patterns of the captured output. -/
def formatGoDocError (output : String) (errText : String) : String :=
  if goContains output "no such package" || goContains output "is not in std" then
    "package not found:\n" ++
    "1. For standard library packages, use just the package name (e.g., 'io', 'net/http')\n" ++
    "2. For external packages, ensure they are imported in the module\n" ++
    "3. For local packages, provide a relative path (e.g., './pkg') or absolute path\n" ++
    "4. Check for typos in the package name\n" ++
    "Detail: " ++ output
  else if goContains output "no such symbol" then
    "symbol not found:\n" ++
    "1. Check if the symbol name is correct (case-sensitive)\n" ++
    "2. Use -u flag to see unexported symbols\n" ++
    "3. Use -all flag to see all package documentation\n" ++
    "Detail: " ++ errText
  else if goContains output "build constraints exclude all Go files" then
    "no Go files for current platform; try -all flag or set GOOS/GOARCH: " ++ errText
  else
    "go doc error: " ++ errText ++ "\noutput: " ++ output

/-! ### `runGoDoc` (`server.go`, lines 306–354) -/

/-- The observable outcome of one `runGoDoc` call: the returned value,
the cache afterwards, and whether the external extractor was invoked. -/
structure RunResult where
  output : Except String String
  cache : Cache
  invoked : Bool

/-- The miss path of `runGoDoc` (lines 321–353): invoke the extractor;
on failure return the formatted error and leave the cache untouched;
on success evict if full, insert the new entry, return the content. -/
def runGoDocMiss (now : Nat) (exec : Except GoDocFail String) (cache : Cache)
    (key : String) : RunResult :=
  match exec with
  | .error f => ⟨.error (formatGoDocError f.output f.errText), cache, true⟩
  | .ok content =>
      ⟨.ok content, insertCache (evictIfFull cache) key ⟨content, now⟩, true⟩

/-- `runGoDoc` (lines 307–354).  `now` is the current time in
nanoseconds; `exec` is the outcome the external `go doc` invocation
would produce.  A live entry (age `< cacheTTL`) is returned without
invoking the extractor; an expired entry is deleted and the call falls
through to the miss path. -/
def runGoDoc (now : Nat) (exec : Except GoDocFail String) (cache : Cache)
    (workingDir : String) (args : List String) : RunResult :=
  let key := cacheKey workingDir args
  match lookupCache cache key with
  | some doc =>
      if now - doc.timestamp < cacheTTL then
        ⟨.ok doc.content, cache, false⟩
      else
        runGoDocMiss now exec (eraseCache cache key) key
  | none => runGoDocMiss now exec cache key

/-! ### `paginate` (`server.go`, lines 184–212) -/

/-- Line 186–188: `if page < 1 { page = 1 }`. -/
def pgClampPage (page : Int) : Int :=
  if page < 1 then 1 else page

/-- Lines 192–195: `totalPages := (totalLines + pageSize - 1) / pageSize;
if totalPages < 1 { totalPages = 1 }`.  Go integer division truncates
toward zero (`Int.tdiv`). -/
def pgTotalPages (totalLines : Nat) (pageSize : Int) : Int :=
  let t := Int.tdiv ((totalLines : Int) + pageSize - 1) pageSize
  if t < 1 then 1 else t

/-- Line 201: `start := (page - 1) * pageSize`. -/
def pageStart (page pageSize : Int) : Int :=
  (page - 1) * pageSize

/-- Lines 202–205: `end := start + pageSize; if end > totalLines { end =
totalLines }`. -/
def pageEnd (totalLines : Nat) (page pageSize : Int) : Int :=
  let e := pageStart page pageSize + pageSize
  if e > (totalLines : Int) then (totalLines : Int) else e

/-- A Go slice expression `l[start:endIdx]`: defined when
`0 ≤ start ≤ endIdx ≤ len(l)`, a runtime panic (`none`) otherwise. -/
def goSlice {α : Type} (l : List α) (start endIdx : Int) : Option (List α) :=
  if 0 ≤ start ∧ start ≤ endIdx ∧ endIdx ≤ (l.length : Int) then
    some ((l.drop start.toNat).take (endIdx - start).toNat)
  else
    none

/-- The list of lines of the requested page: `lines[start:end]` of
line 207, before joining.  `none` models the slice panic. -/
def pageSliceLines (lines : List String) (page pageSize : Int) :
    Option (List String) :=
  goSlice lines (pageStart page pageSize) (pageEnd lines.length page pageSize)

/-- The metadata header of line 208–209:
`fmt.Sprintf("Page %d of %d (showing lines %d-%d of %d)", ...)`. -/
def pgMetadata (page totalPages start endIdx : Int) (totalLines : Nat) : String :=
  "Page " ++ toString page ++ " of " ++ toString totalPages ++
    " (showing lines " ++ toString (start + 1) ++ "-" ++ toString endIdx ++
    " of " ++ toString totalLines ++ ")"

/-- `paginate` (`server.go`, lines 185–212).  The outer `Option` models
Go runtime panics (division by zero when `pageSize = 0`, slice bounds
out of range); `Except` is the `(string, error)` return pair. -/
def paginate (content : String) (page pageSize : Int) :
    Option (Except String String) :=
  if pageSize = 0 then
    none
  else
    let page := pgClampPage page
    let lines := goSplit content '\n'
    let totalLines := lines.length
    let totalPages := pgTotalPages totalLines pageSize
    if page > totalPages then
      some (.error ("page " ++ toString page ++ " exceeds total pages " ++
        toString totalPages))
    else
      let start := pageStart page pageSize
      let e := pageEnd totalLines page pageSize
      match goSlice lines start e with
      | none => none
      | some pageLines =>
          some (.ok (pgMetadata page totalPages start e totalLines ++ "\n\n" ++
            goJoin '\n' pageLines))

/-- Line 119 of `handleGetDoc`:
`pageSize := request.GetInt("page_size", 1000)` — the requested value
when present, the default `1000` otherwise, passed to `paginate`
unchanged (no clamping to the `[100, 5000]` range declared in the tool
schema). -/
def handlerPageSize (requested : Option Int) : Int :=
  requested.getD 1000

/-! ### `validatePath` and its helpers (`server.go`, lines 214–270) -/

/-- Functional model of Go `path.Clean`: drop empty and `"."` segments,
resolve `".."` against a segment stack (kept at the front when not
rooted, dropped at the root when rooted), re-join, and restore the
leading slash or produce `"."` for an empty result. -/
def cleanSegsLoop (rooted : Bool) : List String → List String → List String
  | acc, [] => acc.reverse
  | acc, s :: rest =>
    if s = ".." then
      match acc with
      | [] => if rooted then cleanSegsLoop rooted [] rest
              else cleanSegsLoop rooted [".."] rest
      | top :: tl =>
          if top = ".." then cleanSegsLoop rooted (s :: acc) rest
          else cleanSegsLoop rooted tl rest
    else
      cleanSegsLoop rooted (s :: acc) rest

/-- Functional model of Go `path.Clean`. -/
def pathClean (p : String) : String :=
  if p = "" then "."
  else
    let rooted := goHasPrefix p "/"
    let segs := (goSplit p '/').filter (fun s => s ≠ "" && s ≠ ".")
    let out := goJoin '/' (cleanSegsLoop rooted [] segs)
    if rooted then "/" ++ out
    else if out = "" then "." else out

/-- Go `path.Join(a, b)` (line 231): empty elements are skipped, the
rest joined with `"/"`, and the result cleaned; all-empty input yields
`""`. -/
def pathJoin (a b : String) : String :=
  if a = "" && b = "" then ""
  else if a = "" then pathClean b
  else pathClean (a ++ "/" ++ b)

/-- The scan of `readModuleName` (`server.go`, lines 258–267): for each
line, trim it; skip it unless it begins with `"module "`; return the
second whitespace-delimited field when there are at least two. -/
def readModuleLines : List String → Except String String
  | [] => .error "no module declaration found in go.mod"
  | line :: rest =>
      let line := goTrimSpace line
      if goHasPrefix line "module " then
        match goFields line with
        | _ :: name :: _ => .ok name
        | _ => readModuleLines rest
      else
        readModuleLines rest

/-- `readModuleName` (`server.go`, lines 252–270), over the already-read
file content. -/
def readModuleName (content : String) : Except String String :=
  readModuleLines (goSplit content '\n')

/-- `validatePath` (`server.go`, lines 215–249).  The filesystem is a
parameter `fs` mapping a path to the content of the file there (`none`
when unreadable); `filepath.Join(dir, "go.mod")` is modelled as
`dir ++ "/go.mod"`.  The `[]string` sub-directory return of the Go
function is `nil` on every path of its body, so the model returns only
`Except error resolvedPath`. -/
def validatePath (fs : String → Option String) (pkgPath workingDir : String) :
    Except String String :=
  if goHasPrefix pkgPath "." then
    if workingDir = "" then
      .error "working_dir is required for relative paths (including '.')"
    else
      match fs (workingDir ++ "/go.mod") with
      | none => .error "failed to read go.mod in working directory"
      | some content =>
          match readModuleName content with
          | .error e => .error ("failed to read go.mod in working directory: " ++ e)
          | .ok moduleName =>
              if pkgPath = "." then .ok moduleName
              else .ok (pathJoin moduleName (goTrimPrefix pkgPath "./"))
  else if goHasPrefix pkgPath "/" then
    if workingDir ≠ "" && pkgPath ≠ workingDir then
      .error "absolute path must match working directory when provided"
    else
      match fs (pkgPath ++ "/go.mod") with
      | none => .error "failed to read go.mod"
      | some content =>
          match readModuleName content with
          | .error e => .error ("failed to read go.mod: " ++ e)
          | .ok moduleName => .ok moduleName
  else
    .ok pkgPath

/-! ### Derived notions used by the statements -/

/-- The keys of the cache association list are pairwise distinct: the
defining property of the Go map the list models. -/
def nodupKeys (c : Cache) : Prop :=
  (cacheKeys c).Nodup

/-- One request to `runGoDoc`: the time it happens, the outcome the
extractor would produce, and the call's inputs. -/
structure RunReq where
  now : Nat
  exec : Except GoDocFail String
  workingDir : String
  args : List String

/-- Run a sequence of `runGoDoc` calls, threading the cache. -/
def runSeq (cache : Cache) : List RunReq → Cache
  | [] => cache
  | r :: rest => runSeq (runGoDoc r.now r.exec cache r.workingDir r.args).cache rest

/-- The page slices `lines[start:end]` of every page `1 … totalPages`,
in order (each is `none` if the slice would panic). -/
def allPages (lines : List String) (pageSize : Int) :
    List (Option (List String)) :=
  (List.range (pgTotalPages lines.length pageSize).toNat).map
    (fun (i : Nat) => pageSliceLines lines ((i : Int) + 1) pageSize)

/-- The same pages written as plain chunks of `pageSize` consecutive
lines, at the natural-number level. -/
def natChunks (lines : List String) (pageSize : Nat) : List (List String) :=
  (List.range ((lines.length + pageSize - 1) / pageSize)).map
    (fun i => (lines.drop (i * pageSize)).take pageSize)

/-! ## Lemmas about the cache map model -/

theorem lookupCache_eraseCache_self (c : Cache) (key : String) :
    lookupCache (eraseCache c key) key = none := by
  induction c with
  | nil => rfl
  | cons p rest ih =>
      obtain ⟨k, d⟩ := p
      by_cases h : k = key
      · simpa [eraseCache, h] using ih
      · simpa [eraseCache, lookupCache, h] using ih

theorem lookupCache_eraseCache_ne (c : Cache) {k key : String} (h : k ≠ key) :
    lookupCache (eraseCache c key) k = lookupCache c k := by
  induction c with
  | nil => rfl
  | cons p rest ih =>
      obtain ⟨k', d⟩ := p
      by_cases hk : k' = key
      · have hne : k' ≠ k := fun he => h (he.symm.trans hk)
        rw [eraseCache, if_pos hk, ih, lookupCache, if_neg hne]
      · rw [eraseCache, if_neg hk]
        by_cases hk2 : k' = k
        · rw [lookupCache, if_pos hk2, lookupCache, if_pos hk2]
        · rw [lookupCache, if_neg hk2, lookupCache, if_neg hk2, ih]

theorem lookupCache_append_of_none {c1 : Cache} (c2 : Cache) {k : String}
    (h : lookupCache c1 k = none) :
    lookupCache (c1 ++ c2) k = lookupCache c2 k := by
  induction c1 with
  | nil => rfl
  | cons p rest ih =>
      obtain ⟨k', d⟩ := p
      by_cases hk : k' = k
      · simp [lookupCache, hk] at h
      · simp only [lookupCache, hk, if_neg] at h ⊢
        simp [lookupCache, hk] at h ⊢
        exact ih h

theorem lookupCache_insertCache_self (c : Cache) (key : String) (d : cachedDoc) :
    lookupCache (insertCache c key d) key = some d := by
  unfold insertCache
  rw [lookupCache_append_of_none _ (lookupCache_eraseCache_self c key)]
  simp [lookupCache]

theorem length_eraseCache_le (c : Cache) (key : String) :
    (eraseCache c key).length ≤ c.length := by
  induction c with
  | nil => simp [eraseCache]
  | cons p rest ih =>
      obtain ⟨k, d⟩ := p
      by_cases h : k = key
      · rw [eraseCache, if_pos h]
        simp only [List.length_cons]
        omega
      · rw [eraseCache, if_neg h]
        simp only [List.length_cons]
        omega

theorem eraseCache_of_lookup_none {c : Cache} {key : String}
    (h : lookupCache c key = none) : eraseCache c key = c := by
  induction c with
  | nil => rfl
  | cons p rest ih =>
      obtain ⟨k, d⟩ := p
      by_cases hk : k = key
      · simp [lookupCache, hk] at h
      · simp [lookupCache, hk] at h
        simp [eraseCache, hk, ih h]

theorem cacheKeys_cons_eq (k : String) (d : cachedDoc) (rest : Cache) :
    cacheKeys ((k, d) :: rest) = k :: cacheKeys rest := rfl

theorem lookupCache_eq_none_iff (c : Cache) (key : String) :
    lookupCache c key = none ↔ key ∉ cacheKeys c := by
  induction c with
  | nil => simp [lookupCache, cacheKeys]
  | cons p rest ih =>
      obtain ⟨k, d⟩ := p
      rw [cacheKeys_cons_eq, List.mem_cons, lookupCache]
      by_cases hk : k = key
      · simp [hk]
      · rw [if_neg hk, ih]
        constructor
        · intro h hmem
          rcases hmem with he | hm
          · exact hk he.symm
          · exact h hm
        · intro h hm
          exact h (Or.inr hm)

theorem eraseCache_sublist (c : Cache) (key : String) :
    (eraseCache c key).Sublist c := by
  induction c with
  | nil => simp [eraseCache]
  | cons p rest ih =>
      obtain ⟨k, d⟩ := p
      by_cases h : k = key
      · simp only [eraseCache, if_pos h]
        exact ih.cons _
      · simp only [eraseCache, if_neg h]
        exact ih.cons₂ _

theorem nodupKeys_eraseCache {c : Cache} (key : String) (h : nodupKeys c) :
    nodupKeys (eraseCache c key) :=
  ((eraseCache_sublist c key).map Prod.fst).nodup h

theorem length_eraseCache_of_mem {c : Cache} {key : String}
    (hn : nodupKeys c) (hm : key ∈ cacheKeys c) :
    (eraseCache c key).length + 1 = c.length := by
  induction c with
  | nil => simp [cacheKeys] at hm
  | cons p rest ih =>
      obtain ⟨k, d⟩ := p
      have hn' : k ∉ cacheKeys rest ∧ nodupKeys rest := by
        have h0 : nodupKeys ((k, d) :: rest) := hn
        rw [nodupKeys, cacheKeys_cons_eq, List.nodup_cons] at h0
        exact h0
      by_cases h : k = key
      · have h1 : key ∉ cacheKeys rest := h ▸ hn'.1
        have h2 : lookupCache rest key = none := (lookupCache_eq_none_iff _ _).2 h1
        rw [eraseCache, if_pos h, eraseCache_of_lookup_none h2]
        rfl
      · rw [cacheKeys_cons_eq, List.mem_cons] at hm
        rcases hm with hm | hm
        · exact absurd hm.symm h
        · have := ih hn'.2 hm
          rw [eraseCache, if_neg h]
          simp only [List.length_cons]
          omega

theorem nodupKeys_insertCache {c : Cache} (key : String) (d : cachedDoc)
    (h : nodupKeys c) : nodupKeys (insertCache c key d) := by
  have h1 : nodupKeys (eraseCache c key) := nodupKeys_eraseCache key h
  have h2 : key ∉ cacheKeys (eraseCache c key) :=
    (lookupCache_eq_none_iff _ _).1 (lookupCache_eraseCache_self c key)
  show (cacheKeys (eraseCache c key ++ [(key, d)])).Nodup
  rw [cacheKeys, List.map_append, List.nodup_append]
  refine ⟨h1, by simp, ?_⟩
  intro a ha hb
  simp only [List.map_cons, List.map_nil, List.mem_singleton] at hb
  exact h2 (hb ▸ ha)

theorem length_insertCache_le (c : Cache) (key : String) (d : cachedDoc) :
    (insertCache c key d).length ≤ c.length + 1 := by
  unfold insertCache
  rw [List.length_append]
  have := length_eraseCache_le c key
  simp only [List.length_cons, List.length_nil]
  omega

theorem length_insertCache_of_lookup_none {c : Cache} {key : String}
    (d : cachedDoc) (h : lookupCache c key = none) :
    (insertCache c key d).length = c.length + 1 := by
  unfold insertCache
  rw [eraseCache_of_lookup_none h, List.length_append]
  rfl

/-! ## Lemmas about the eviction scan -/

theorem scanOldest_mem (c : Cache) (acc : String × Nat) :
    scanOldest c acc = acc ∨
      scanOldest c acc ∈ c.map (fun p => (p.1, p.2.timestamp)) := by
  induction c generalizing acc with
  | nil => exact Or.inl rfl
  | cons p rest ih =>
      obtain ⟨k, d⟩ := p
      simp only [scanOldest]
      by_cases h : acc.1 = "" ∨ d.timestamp < acc.2
      · rw [if_pos h]
        rcases ih (k, d.timestamp) with he | hm
        · exact Or.inr (by simp [he])
        · exact Or.inr (List.mem_cons_of_mem _ hm)
      · rw [if_neg h]
        rcases ih acc with he | hm
        · exact Or.inl he
        · exact Or.inr (List.mem_cons_of_mem _ hm)

theorem scanOldest_min (c : Cache) (acc : String × Nat)
    (hk : ∀ p ∈ c, p.1 ≠ "") (ha : acc.1 ≠ "") :
    (scanOldest c acc).2 ≤ acc.2 ∧
      ∀ p ∈ c, (scanOldest c acc).2 ≤ p.2.timestamp := by
  induction c generalizing acc with
  | nil => exact ⟨le_refl _, by simp⟩
  | cons p rest ih =>
      obtain ⟨k, d⟩ := p
      have hk' : k ≠ "" := hk (k, d) (List.mem_cons_self _ _)
      simp only [scanOldest]
      by_cases h : acc.1 = "" ∨ d.timestamp < acc.2
      · rw [if_pos h]
        have hd : d.timestamp < acc.2 := h.resolve_left ha
        have := ih (k, d.timestamp) (fun p hp => hk p (List.mem_cons_of_mem _ hp)) hk'
        refine ⟨this.1.trans hd.le, ?_⟩
        intro q hq
        rcases List.mem_cons.1 hq with he | hm
        · exact he ▸ this.1
        · exact this.2 q hm
      · rw [if_neg h]
        push_neg at h
        have := ih acc (fun p hp => hk p (List.mem_cons_of_mem _ hp)) ha
        refine ⟨this.1, ?_⟩
        intro q hq
        rcases List.mem_cons.1 hq with he | hm
        · exact he ▸ (this.1.trans h.2)
        · exact this.2 q hm

theorem scanOldest_head_mem {c : Cache} (hne : c ≠ []) :
    scanOldest c ("", 0) ∈ c.map (fun p => (p.1, p.2.timestamp)) := by
  cases c with
  | nil => exact absurd rfl hne
  | cons p rest =>
      obtain ⟨k, d⟩ := p
      simp only [scanOldest, if_pos (Or.inl rfl)]
      rcases scanOldest_mem rest (k, d.timestamp) with he | hm
      · simp [he]
      · exact List.mem_cons_of_mem _ hm

theorem findOldestKey_mem {c : Cache} (hne : c ≠ []) :
    findOldestKey c ∈ cacheKeys c := by
  have := scanOldest_head_mem hne
  unfold findOldestKey cacheKeys
  rcases List.mem_map.1 this with ⟨p, hp, he⟩
  exact List.mem_map.2 ⟨p, hp, congrArg Prod.fst he⟩

theorem findOldestKey_min {c : Cache} (hne : c ≠ [])
    (hk : ∀ p ∈ c, p.1 ≠ "") :
    ∃ d, (findOldestKey c, d) ∈ c ∧
      ∀ p ∈ c, d.timestamp ≤ p.2.timestamp := by
  cases c with
  | nil => exact absurd rfl hne
  | cons q rest =>
      obtain ⟨k, d0⟩ := q
      have hk0 : k ≠ "" := hk (k, d0) (List.mem_cons_self _ _)
      have hrun : scanOldest ((k, d0) :: rest) ("", 0)
          = scanOldest rest (k, d0.timestamp) := by
        simp [scanOldest]
      have hmin := scanOldest_min rest (k, d0.timestamp)
        (fun p hp => hk p (List.mem_cons_of_mem _ hp)) hk0
      have hmem := scanOldest_head_mem (c := (k, d0) :: rest) (by simp)
      rcases List.mem_map.1 hmem with ⟨p, hp, he⟩
      refine ⟨p.2, ?_, ?_⟩
      · have h1 : p.1 = findOldestKey ((k, d0) :: rest) := congrArg Prod.fst he
        rw [← h1]
        exact hp
      · intro q hq
        have h2 : p.2.timestamp = (scanOldest rest (k, d0.timestamp)).2 := by
          have hs := congrArg Prod.snd he
          rw [hrun] at hs
          exact hs
        rcases List.mem_cons.1 hq with rfl | hm
        · rw [h2]
          exact hmin.1
        · rw [h2]
          exact hmin.2 q hm

/-! ## Case lemmas for `runGoDoc` -/

theorem runGoDoc_hit {now : Nat} {exec : Except GoDocFail String} {cache : Cache}
    {dir : String} {args : List String} {doc : cachedDoc}
    (hl : lookupCache cache (cacheKey dir args) = some doc)
    (hf : now - doc.timestamp < cacheTTL) :
    runGoDoc now exec cache dir args = ⟨.ok doc.content, cache, false⟩ := by
  simp only [runGoDoc]
  rw [hl]
  simp only [if_pos hf]

theorem runGoDoc_expired {now : Nat} {exec : Except GoDocFail String} {cache : Cache}
    {dir : String} {args : List String} {doc : cachedDoc}
    (hl : lookupCache cache (cacheKey dir args) = some doc)
    (hf : ¬ now - doc.timestamp < cacheTTL) :
    runGoDoc now exec cache dir args
      = runGoDocMiss now exec (eraseCache cache (cacheKey dir args))
          (cacheKey dir args) := by
  simp only [runGoDoc]
  rw [hl]
  simp only [if_neg hf]

theorem runGoDoc_absent {now : Nat} {exec : Except GoDocFail String} {cache : Cache}
    {dir : String} {args : List String}
    (hl : lookupCache cache (cacheKey dir args) = none) :
    runGoDoc now exec cache dir args
      = runGoDocMiss now exec cache (cacheKey dir args) := by
  simp only [runGoDoc]
  rw [hl]

theorem runGoDoc_ok_lookup {now : Nat} {exec : Except GoDocFail String}
    {cache : Cache} {dir : String} {args : List String} {s : String}
    (h : (runGoDoc now exec cache dir args).output = .ok s) :
    ∃ t, lookupCache (runGoDoc now exec cache dir args).cache
      (cacheKey dir args) = some ⟨s, t⟩ := by
  rcases hl : lookupCache cache (cacheKey dir args) with _ | doc
  · rw [runGoDoc_absent hl] at h ⊢
    cases exec with
    | error f => simp [runGoDocMiss] at h
    | ok content =>
        simp only [runGoDocMiss, Except.ok.injEq] at h
        refine ⟨now, ?_⟩
        rw [← h]
        exact lookupCache_insertCache_self _ _ _
  · by_cases hf : now - doc.timestamp < cacheTTL
    · rw [runGoDoc_hit hl hf] at h ⊢
      simp only [Except.ok.injEq] at h
      exact ⟨doc.timestamp, by rw [hl, ← h]⟩
    · rw [runGoDoc_expired hl hf] at h ⊢
      cases exec with
      | error f => simp [runGoDocMiss] at h
      | ok content =>
          simp only [runGoDocMiss, Except.ok.injEq] at h
          refine ⟨now, ?_⟩
          rw [← h]
          exact lookupCache_insertCache_self _ _ _

/-! ## Claim theorems C1, C8 -/

/-- C1: if `runGoDoc` is called a second time with the identical
execution-context directory and the identical argument vector, and the
entry stored by the first (successful) call is still younger than the
TTL at the time of the second call, then the second call returns
byte-identical content (`.ok s`, the same string) and does not invoke
the external extractor (`invoked = false`). -/
theorem c1_second_call_within_ttl_hits
    (now1 now2 : Nat) (ex1 ex2 : Except GoDocFail String) (cache : Cache)
    (dir : String) (args : List String) (s : String)
    (h1 : (runGoDoc now1 ex1 cache dir args).output = .ok s)
    (hage : ∀ d, lookupCache (runGoDoc now1 ex1 cache dir args).cache
      (cacheKey dir args) = some d → now2 - d.timestamp < cacheTTL) :
    (runGoDoc now2 ex2 (runGoDoc now1 ex1 cache dir args).cache dir args).output
        = .ok s ∧
    (runGoDoc now2 ex2 (runGoDoc now1 ex1 cache dir args).cache dir args).invoked
        = false := by
  obtain ⟨t, hl⟩ := runGoDoc_ok_lookup h1
  have hf := hage ⟨s, t⟩ hl
  rw [runGoDoc_hit hl hf]
  exact ⟨rfl, rfl⟩

/-- Witness for C1 at a concrete input: a first call at time 0 caches
`"doc"`; a second call one nanosecond later returns the same bytes
without invoking the (here failing) extractor. -/
theorem c1_witness :
    (runGoDoc 1 (.error ⟨"", ""⟩)
        ((runGoDoc 0 (.ok "doc") [] "d" ["io"]).cache) "d" ["io"]).output
      = .ok "doc" ∧
    (runGoDoc 1 (.error ⟨"", ""⟩)
        ((runGoDoc 0 (.ok "doc") [] "d" ["io"]).cache) "d" ["io"]).invoked
      = false :=
  c1_second_call_within_ttl_hits 0 1 (.ok "doc") (.error ⟨"", ""⟩) [] "d" ["io"]
    "doc" rfl
    (fun d h => by
      have he : lookupCache ((runGoDoc 0 (.ok "doc") [] "d" ["io"]).cache)
          (cacheKey "d" ["io"]) = some ⟨"doc", 0⟩ := rfl
      rw [he] at h
      cases h
      decide)

/-- C8: when the external extractor invocation fails (the call is not
served from a live cache entry, so the extractor runs), `runGoDoc`
returns the categorized failure produced by `formatGoDocError`, and the
cache is left exactly as it was at the moment of the invocation (the
state after the expired-entry removal, if one happened): no entry
exists for the failed key, and every other key is untouched. -/
theorem c8_failure_never_cached
    (now : Nat) (f : GoDocFail) (cache : Cache) (dir : String)
    (args : List String)
    (hmiss : ∀ d, lookupCache cache (cacheKey dir args) = some d →
      ¬ now - d.timestamp < cacheTTL) :
    (runGoDoc now (.error f) cache dir args).invoked = true ∧
    (runGoDoc now (.error f) cache dir args).output
      = .error (formatGoDocError f.output f.errText) ∧
    (runGoDoc now (.error f) cache dir args).cache
      = (if (lookupCache cache (cacheKey dir args)).isSome
          then eraseCache cache (cacheKey dir args) else cache) ∧
    lookupCache (runGoDoc now (.error f) cache dir args).cache
      (cacheKey dir args) = none ∧
    ∀ k, k ≠ cacheKey dir args →
      lookupCache (runGoDoc now (.error f) cache dir args).cache k
        = lookupCache cache k := by
  rcases hl : lookupCache cache (cacheKey dir args) with _ | doc
  · rw [runGoDoc_absent hl]
    refine ⟨rfl, rfl, rfl, hl, fun k _ => rfl⟩
  · have hf := hmiss doc hl
    rw [runGoDoc_expired hl hf]
    refine ⟨rfl, rfl, rfl, ?_, ?_⟩
    · exact lookupCache_eraseCache_self _ _
    · intro k hk
      exact lookupCache_eraseCache_ne _ hk

/-- Witness for C8: a failing extraction for an absent key at time 0
leaves the one-entry cache untouched. -/
theorem c8_witness :
    (runGoDoc 0 (.error ⟨"no such symbol X", "exit status 1"⟩)
        [("k|io", ⟨"old", 0⟩)] "d" ["io"]).invoked = true ∧
    (runGoDoc 0 (.error ⟨"no such symbol X", "exit status 1"⟩)
        [("k|io", ⟨"old", 0⟩)] "d" ["io"]).output
      = .error (formatGoDocError "no such symbol X" "exit status 1") ∧
    (runGoDoc 0 (.error ⟨"no such symbol X", "exit status 1"⟩)
        [("k|io", ⟨"old", 0⟩)] "d" ["io"]).cache
      = (if (lookupCache [("k|io", ⟨"old", 0⟩)] (cacheKey "d" ["io"])).isSome
          then eraseCache [("k|io", ⟨"old", 0⟩)] (cacheKey "d" ["io"])
          else [("k|io", ⟨"old", 0⟩)]) ∧
    lookupCache (runGoDoc 0 (.error ⟨"no such symbol X", "exit status 1"⟩)
        [("k|io", ⟨"old", 0⟩)] "d" ["io"]).cache (cacheKey "d" ["io"]) = none ∧
    ∀ k, k ≠ cacheKey "d" ["io"] →
      lookupCache (runGoDoc 0 (.error ⟨"no such symbol X", "exit status 1"⟩)
          [("k|io", ⟨"old", 0⟩)] "d" ["io"]).cache k
        = lookupCache [("k|io", ⟨"old", 0⟩)] k :=
  c8_failure_never_cached 0 ⟨"no such symbol X", "exit status 1"⟩
    [("k|io", ⟨"old", 0⟩)] "d" ["io"]
    (fun d h => by
      have he : lookupCache [("k|io", ⟨"old", 0⟩)] (cacheKey "d" ["io"])
          = none := rfl
      rw [he] at h
      cases h)

/-! ## Claim theorems C3, C4 -/

theorem nodupKeys_evictIfFull {c : Cache} (h : nodupKeys c) :
    nodupKeys (evictIfFull c) := by
  unfold evictIfFull
  by_cases hf : maxCacheSize ≤ c.length
  · rw [if_pos hf]
    exact nodupKeys_eraseCache _ h
  · rw [if_neg hf]
    exact h

theorem length_evictIfFull_of_full {c : Cache} (hn : nodupKeys c)
    (hf : maxCacheSize ≤ c.length) :
    (evictIfFull c).length + 1 = c.length := by
  have hne : c ≠ [] := by
    intro he
    rw [he] at hf
    simp [maxCacheSize] at hf
  rw [evictIfFull, if_pos hf]
  exact length_eraseCache_of_mem hn (findOldestKey_mem hne)

theorem runGoDocMiss_preserves_inv {c : Cache} (now : Nat)
    (exec : Except GoDocFail String) (key : String)
    (hn : nodupKeys c) (hl : c.length ≤ maxCacheSize) :
    nodupKeys (runGoDocMiss now exec c key).cache ∧
    (runGoDocMiss now exec c key).cache.length ≤ maxCacheSize := by
  cases exec with
  | error f => exact ⟨hn, hl⟩
  | ok content =>
      have hnv : nodupKeys (evictIfFull c) := nodupKeys_evictIfFull hn
      refine ⟨nodupKeys_insertCache _ _ hnv, ?_⟩
      show (insertCache (evictIfFull c) key ⟨content, now⟩).length ≤ maxCacheSize
      have hle := length_insertCache_le (evictIfFull c) key ⟨content, now⟩
      by_cases hf : maxCacheSize ≤ c.length
      · have := length_evictIfFull_of_full hn hf
        omega
      · have hev : evictIfFull c = c := by rw [evictIfFull, if_neg hf]
        rw [hev] at hle ⊢
        omega

theorem runGoDoc_preserves_inv (now : Nat) (exec : Except GoDocFail String)
    {cache : Cache} (dir : String) (args : List String)
    (hn : nodupKeys cache) (hl : cache.length ≤ maxCacheSize) :
    nodupKeys (runGoDoc now exec cache dir args).cache ∧
    (runGoDoc now exec cache dir args).cache.length ≤ maxCacheSize := by
  rcases hlk : lookupCache cache (cacheKey dir args) with _ | doc
  · rw [runGoDoc_absent hlk]
    exact runGoDocMiss_preserves_inv now exec _ hn hl
  · by_cases hf : now - doc.timestamp < cacheTTL
    · rw [runGoDoc_hit hlk hf]
      exact ⟨hn, hl⟩
    · rw [runGoDoc_expired hlk hf]
      have h1 : nodupKeys (eraseCache cache (cacheKey dir args)) :=
        nodupKeys_eraseCache _ hn
      have h2 := length_eraseCache_le cache (cacheKey dir args)
      exact runGoDocMiss_preserves_inv now exec _ h1 (h2.trans hl)

/-- C3: starting from any cache with at most `maxCacheSize` (= 500)
entries (and the map property of distinct keys), every sequence of
`runGoDoc` calls keeps the cache size at most `maxCacheSize`.  Since
every intermediate state of a sequence is itself `runSeq` of a prefix,
this bounds the size after each mutating operation. -/
theorem c3_cache_size_bounded (reqs : List RunReq) (cache : Cache)
    (hn : nodupKeys cache) (hl : cache.length ≤ maxCacheSize) :
    (runSeq cache reqs).length ≤ maxCacheSize := by
  induction reqs generalizing cache with
  | nil => exact hl
  | cons r rest ih =>
      have h := runGoDoc_preserves_inv r.now r.exec r.workingDir r.args hn hl
      exact ih _ h.1 h.2

/-- Witness for C3: a three-call sequence (miss, hit, failing miss)
from the empty cache stays within the bound. -/
theorem c3_witness :
    (runSeq [] [⟨0, .ok "a", "d", ["io"]⟩, ⟨1, .ok "b", "d", ["io"]⟩,
      ⟨2, .error ⟨"x", "y"⟩, "d", ["fmt"]⟩]).length ≤ maxCacheSize :=
  c3_cache_size_bounded _ [] (by simp [nodupKeys, cacheKeys]) (by decide)

/-- C4: when an insertion happens with the cache at capacity (the key
is absent, all 500 slots filled), the entry removed by the eviction
scan is one whose timestamp is less than or equal to every other
entry's timestamp, the new cache is exactly the old one with that entry
evicted and the new entry inserted, and the size after the eviction
plus insertion equals `maxCacheSize` again.  (Keys produced by
`cacheKey` always contain the separator, hence the `p.1 ≠ ""`
hypothesis on the stored keys.) -/
theorem c4_eviction_removes_oldest
    (now : Nat) (content : String) (cache : Cache) (dir : String)
    (args : List String)
    (hn : nodupKeys cache) (hne : ∀ p ∈ cache, p.1 ≠ "")
    (hfull : cache.length = maxCacheSize)
    (habs : lookupCache cache (cacheKey dir args) = none) :
    (∃ d, (findOldestKey cache, d) ∈ cache ∧
      ∀ p ∈ cache, d.timestamp ≤ p.2.timestamp) ∧
    (runGoDoc now (.ok content) cache dir args).cache
      = insertCache (eraseCache cache (findOldestKey cache))
          (cacheKey dir args) ⟨content, now⟩ ∧
    (runGoDoc now (.ok content) cache dir args).cache.length
      = maxCacheSize := by
  have hcne : cache ≠ [] := by
    intro he
    rw [he] at hfull
    simp [maxCacheSize] at hfull
  have hfe : maxCacheSize ≤ cache.length := hfull.ge
  have hev : evictIfFull cache = eraseCache cache (findOldestKey cache) := by
    rw [evictIfFull, if_pos hfe]
  have hres : (runGoDoc now (.ok content) cache dir args).cache
      = insertCache (eraseCache cache (findOldestKey cache))
          (cacheKey dir args) ⟨content, now⟩ := by
    rw [runGoDoc_absent habs]
    show insertCache (evictIfFull cache) (cacheKey dir args) ⟨content, now⟩ = _
    rw [hev]
  refine ⟨findOldestKey_min hcne hne, hres, ?_⟩
  rw [hres]
  have hkey : cacheKey dir args ∉ cacheKeys cache :=
    (lookupCache_eq_none_iff _ _).1 habs
  have hkey2 : cacheKey dir args ∉ cacheKeys (eraseCache cache (findOldestKey cache)) := by
    intro hm
    exact hkey (((eraseCache_sublist cache (findOldestKey cache)).map Prod.fst).mem hm)
  have hnone : lookupCache (eraseCache cache (findOldestKey cache))
      (cacheKey dir args) = none := (lookupCache_eq_none_iff _ _).2 hkey2
  rw [length_insertCache_of_lookup_none _ hnone]
  have := length_eraseCache_of_mem hn (findOldestKey_mem hcne)
  omega

/-- Witness for C4: a full 500-entry cache (distinct nonempty keys,
timestamps 1..500) plus an insertion for an absent key ends at exactly
`maxCacheSize` entries. -/
theorem c4_witness :
    (runGoDoc 1000 (.ok "new")
        ((List.range 500).map
          (fun i => (String.mk (List.replicate (i + 1) 'x'),
            (⟨"c", i + 1⟩ : cachedDoc))))
        "d" ["io"]).cache.length = maxCacheSize := by
  have hn : nodupKeys ((List.range 500).map
      (fun i => (String.mk (List.replicate (i + 1) 'x'),
        (⟨"c", i + 1⟩ : cachedDoc)))) := by
    unfold nodupKeys cacheKeys
    rw [List.map_map]
    refine List.Nodup.map ?_ (List.nodup_range 500)
    intro a b h
    have hd := congrArg String.data h
    simp only [Function.comp] at hd
    have := congrArg List.length hd
    simpa using this
  have hne : ∀ p ∈ (List.range 500).map
      (fun i => (String.mk (List.replicate (i + 1) 'x'),
        (⟨"c", i + 1⟩ : cachedDoc))), p.1 ≠ "" := by
    intro p hp
    obtain ⟨i, hi, rfl⟩ := List.mem_map.1 hp
    intro h
    have hd := congrArg String.data h
    have := congrArg List.length hd
    simp at this
  have hfull : ((List.range 500).map
      (fun i => (String.mk (List.replicate (i + 1) 'x'),
        (⟨"c", i + 1⟩ : cachedDoc)))).length = maxCacheSize := by
    simp [maxCacheSize]
  have habs : lookupCache ((List.range 500).map
      (fun i => (String.mk (List.replicate (i + 1) 'x'),
        (⟨"c", i + 1⟩ : cachedDoc)))) (cacheKey "d" ["io"]) = none := by
    rw [lookupCache_eq_none_iff]
    unfold cacheKeys
    rw [List.map_map]
    intro hm
    obtain ⟨i, hi, he⟩ := List.mem_map.1 hm
    simp only [Function.comp] at he
    have hk : cacheKey "d" ["io"] = "d|io" := rfl
    rw [hk] at he
    have hd := congrArg String.data he
    rw [List.replicate_succ] at hd
    have : 'x' = 'd' := List.head_eq_of_cons_eq hd
    exact absurd this (by decide)
  exact (c4_eviction_removes_oldest 1000 "new" _ "d" ["io"] hn hne hfull habs).2.2

/-! ## Lemmas about splitting and joining lines -/

theorem splitOnChar_ne_nil (sep : Char) (l : List Char) :
    splitOnChar sep l ≠ [] := by
  induction l with
  | nil => simp [splitOnChar]
  | cons c cs ih =>
      by_cases h : c = sep
      · simp [splitOnChar, h]
      · simp only [splitOnChar, if_neg h]
        cases hs : splitOnChar sep cs with
        | nil => simp
        | cons a t => simp

theorem joinWithChar_splitOnChar (sep : Char) (l : List Char) :
    joinWithChar sep (splitOnChar sep l) = l := by
  induction l with
  | nil => rfl
  | cons c cs ih =>
      rcases hs : splitOnChar sep cs with _ | ⟨a, t⟩
      · exact absurd hs (splitOnChar_ne_nil sep cs)
      · rw [hs] at ih
        by_cases h : c = sep
        · subst h
          rw [splitOnChar, if_pos rfl, hs]
          show [] ++ c :: joinWithChar c (a :: t) = c :: cs
          rw [List.nil_append, ih]
        · rw [splitOnChar, if_neg h, hs]
          cases t with
          | nil =>
              show c :: a = c :: cs
              rw [show joinWithChar sep [a] = a from rfl] at ih
              rw [ih]
          | cons b t2 =>
              show (c :: a) ++ sep :: joinWithChar sep (b :: t2) = c :: cs
              rw [List.cons_append]
              congr 1

theorem goJoin_goSplit (s : String) (sep : Char) :
    goJoin sep (goSplit s sep) = s := by
  unfold goJoin goSplit
  rw [List.map_map]
  rw [show (String.data ∘ String.mk) = id from rfl, List.map_id]
  rw [joinWithChar_splitOnChar]

theorem goSplit_length_pos (s : String) (sep : Char) :
    0 < (goSplit s sep).length := by
  unfold goSplit
  rw [List.length_map]
  exact List.length_pos.2 (splitOnChar_ne_nil sep s.data)

/-! ## Arithmetic of `pgTotalPages` and the page slices -/

theorem ceil_div_spec (L k : Nat) (hL : 1 ≤ L) (hk : 1 ≤ k) :
    L ≤ ((L + k - 1) / k) * k ∧ ((L + k - 1) / k - 1) * k < L ∧
      1 ≤ (L + k - 1) / k := by
  have hk0 : 0 < k := hk
  set q := (L + k - 1) / k with hq
  have h1 : q * k ≤ L + k - 1 := Nat.div_mul_le_self _ _
  have h2 : L + k - 1 < (q + 1) * k :=
    (Nat.div_lt_iff_lt_mul hk0).1 (Nat.lt_succ_self q)
  have h3 : 1 ≤ q := (Nat.one_le_div_iff hk0).2 (by omega)
  have e1 : (q + 1) * k = q * k + k := by ring
  have e2 : (q - 1) * k = q * k - k := by
    rw [Nat.sub_mul, one_mul]
  rw [e1] at h2
  refine ⟨by omega, by rw [e2]; omega, h3⟩

theorem pgTotalPages_cast (L k : Nat) (hL : 1 ≤ L) (hk : 1 ≤ k) :
    pgTotalPages L (k : Int) = (((L + k - 1) / k : Nat) : Int) := by
  unfold pgTotalPages
  have h1 : (L : Int) + (k : Int) - 1 = ((L + k - 1 : Nat) : Int) := by omega
  rw [h1]
  have h2 : ((L + k - 1 : Nat) : Int).tdiv (k : Int)
      = (((L + k - 1) / k : Nat) : Int) := rfl
  rw [h2]
  have h3 : 1 ≤ (L + k - 1) / k := (Nat.one_le_div_iff (by omega)).2 (by omega)
  rw [if_neg (by omega)]

theorem pageEnd_eq_min (L : Nat) (p ps : Int) :
    pageEnd L p ps = min (pageStart p ps + ps) (L : Int) := by
  unfold pageEnd
  by_cases h : pageStart p ps + ps > (L : Int)
  · rw [if_pos h, min_eq_right h.le]
  · rw [if_neg h, min_eq_left (not_lt.1 h)]

theorem pageStart_cast (i k : Nat) :
    pageStart ((i : Int) + 1) (k : Int) = ((i * k : Nat) : Int) := by
  unfold pageStart
  push_cast
  ring

theorem pageSliceLines_eq (lines : List String) (k i : Nat) (hk : 1 ≤ k)
    (hi : i < (lines.length + k - 1) / k) :
    pageSliceLines lines ((i : Int) + 1) (k : Int)
      = some ((lines.drop (i * k)).take k) := by
  set L := lines.length with hLdef
  have hL : 1 ≤ L := by
    by_contra h
    have hL0 : L = 0 := by omega
    rw [hL0] at hi
    have hz : (0 + k - 1) / k = 0 := Nat.div_eq_of_lt (by omega)
    omega
  obtain ⟨hc1, hc2, hq1⟩ := ceil_div_spec L k hL hk
  set q := (L + k - 1) / k with hqdef
  have hik : i * k < L := by
    have hle : i ≤ q - 1 := by omega
    have h2 : i * k ≤ (q - 1) * k := Nat.mul_le_mul_right k hle
    exact lt_of_le_of_lt h2 hc2
  have hstart := pageStart_cast i k
  have hend2 : pageEnd L ((i : Int) + 1) (k : Int)
      = ((min (i * k + k) L : Nat) : Int) := by
    rw [pageEnd_eq_min, hstart]
    push_cast
    omega
  unfold pageSliceLines goSlice
  rw [hstart, ← hLdef, hend2]
  rw [if_pos ?cond]
  case cond =>
    refine ⟨by exact_mod_cast Nat.zero_le _, ?_, ?_⟩
    · exact_mod_cast Nat.le_min.2 ⟨by omega, hik.le⟩
    · exact_mod_cast min_le_right _ _
  congr 1
  rw [Int.toNat_natCast]
  have hsub : ((((min (i * k + k) L : Nat)) : Int) - (((i * k : Nat)) : Int)).toNat
      = min (i * k + k) L - i * k := by omega
  rw [hsub]
  rcases le_total (i * k + k) L with hcase | hcase
  · have he : min (i * k + k) L - i * k = k := by omega
    rw [he]
  · have hm : min (i * k + k) L - i * k = L - i * k := by omega
    rw [hm]
    have hlen : (lines.drop (i * k)).length = L - i * k := by
      rw [List.length_drop]
    have h4 : (lines.drop (i * k)).length ≤ L - i * k := le_of_eq hlen
    have h5 : (lines.drop (i * k)).length ≤ k := by
      rw [hlen]
      omega
    rw [List.take_of_length_le h4, List.take_of_length_le h5]

theorem chunks_flatten_take {α : Type} (l : List α) (k : Nat) (n : Nat) :
    ((List.range n).map (fun i => (l.drop (i * k)).take k)).flatten
      = l.take (n * k) := by
  induction n with
  | zero => simp
  | succ n ih =>
      rw [List.range_succ, List.map_append, List.flatten_append, ih]
      simp only [List.map_cons, List.map_nil]
      rw [show ([(l.drop (n * k)).take k] : List (List α)).flatten
        = (l.drop (n * k)).take k by simp]
      rw [Nat.succ_mul, List.take_add]

theorem natChunks_flatten (lines : List String) (k : Nat) (hk : 1 ≤ k)
    (hL : 1 ≤ lines.length) :
    (natChunks lines k).flatten = lines := by
  unfold natChunks
  rw [chunks_flatten_take]
  exact List.take_of_length_le (ceil_div_spec lines.length k hL hk).1

theorem allPages_eq_chunks (content : String) (k : Nat) (hk : 1 ≤ k) :
    allPages (goSplit content '\n') (k : Int)
      = (natChunks (goSplit content '\n') k).map some := by
  have hL : 1 ≤ (goSplit content '\n').length :=
    goSplit_length_pos content '\n'
  unfold allPages natChunks
  rw [pgTotalPages_cast _ k hL hk, Int.toNat_natCast, List.map_map]
  refine List.map_congr_left ?_
  intro i hi
  rw [List.mem_range] at hi
  show pageSliceLines (goSplit content '\n') ((i : Int) + 1) (k : Int)
      = ((some ∘ fun i => ((goSplit content '\n').drop (i * k)).take k) i)
  rw [Function.comp]
  exact pageSliceLines_eq _ k i hk hi

theorem one_le_pgTotalPages (L : Nat) (ps : Int) :
    1 ≤ pgTotalPages L ps := by
  simp only [pgTotalPages]
  split
  · omega
  · omega

theorem one_le_pgClampPage (page : Int) : 1 ≤ pgClampPage page := by
  simp only [pgClampPage]
  split
  · omega
  · omega

theorem pageSliceLines_isSome (lines : List String) (ps p : Int) (hps : 1 ≤ ps)
    (hp1 : 1 ≤ p) (hp2 : p ≤ pgTotalPages lines.length ps)
    (hL : 1 ≤ lines.length) :
    ∃ c, pageSliceLines lines p ps = some c := by
  set k := ps.toNat with hkdef
  have hk1 : 1 ≤ k := by omega
  have hcast : (k : Int) = ps := Int.toNat_of_nonneg (by omega)
  set i := p.toNat - 1 with hidef
  have hpi : p = (i : Int) + 1 := by omega
  have hq : pgTotalPages lines.length ps
      = (((lines.length + k - 1) / k : Nat) : Int) := by
    rw [← hcast]
    exact pgTotalPages_cast _ _ hL hk1
  have hilt : i < (lines.length + k - 1) / k := by
    rw [hq] at hp2
    omega
  refine ⟨(lines.drop (i * k)).take k, ?_⟩
  rw [hpi, ← hcast]
  exact pageSliceLines_eq lines k i hk1 hilt

theorem paginate_ok (content : String) (page ps : Int) (hps : 1 ≤ ps)
    (hle : pgClampPage page ≤ pgTotalPages (goSplit content '\n').length ps) :
    ∃ s, paginate content page ps = some (Except.ok s) := by
  have hps0 : ¬ ps = 0 := by omega
  have hL : 1 ≤ (goSplit content '\n').length := goSplit_length_pos content '\n'
  obtain ⟨c, hc⟩ := pageSliceLines_isSome (goSplit content '\n') ps
    (pgClampPage page) hps (one_le_pgClampPage page) hle hL
  have hc2 : goSlice (goSplit content '\n')
      (pageStart (pgClampPage page) ps)
      (pageEnd (goSplit content '\n').length (pgClampPage page) ps) = some c := hc
  simp only [paginate]
  rw [if_neg hps0, if_neg (not_lt.2 hle), hc2]
  exact ⟨_, rfl⟩

/-! ## Claim theorems C5, C6, C9, C10 -/

/-- C5: for every content string and every `pageSize ≥ 1`, with `L` the
number of lines: `totalPages` is the least integer `t ≥ 1` with
`L ≤ t * pageSize` (i.e. `ceil(L / pageSize)`, minimum 1 — automatic
since `L ≥ 1`); consecutive pages have contiguous line ranges
(`end` of page `p` = `start` of page `p+1`, hence disjoint), each page's
range is nonempty; every page slice `1 … totalPages` succeeds and equals
the corresponding block of `pageSize` consecutive whole lines; the
concatenation of all pages' lines is exactly the line list of the
content, and joining those lines on line boundaries reproduces the
content byte-for-byte. -/
theorem c5_pagination_round_trip (content : String) (pageSize : Int)
    (hps : 1 ≤ pageSize) :
    1 ≤ pgTotalPages (goSplit content '\n').length pageSize ∧
    ((goSplit content '\n').length : Int)
      ≤ pgTotalPages (goSplit content '\n').length pageSize * pageSize ∧
    (pgTotalPages (goSplit content '\n').length pageSize - 1) * pageSize
      < ((goSplit content '\n').length : Int) ∧
    (∀ p : Int, 1 ≤ p →
      p < pgTotalPages (goSplit content '\n').length pageSize →
      pageEnd (goSplit content '\n').length p pageSize
        = pageStart (p + 1) pageSize) ∧
    (∀ p : Int, 1 ≤ p →
      p ≤ pgTotalPages (goSplit content '\n').length pageSize →
      pageStart p pageSize
        < pageEnd (goSplit content '\n').length p pageSize) ∧
    allPages (goSplit content '\n') pageSize
      = (natChunks (goSplit content '\n') pageSize.toNat).map some ∧
    (natChunks (goSplit content '\n') pageSize.toNat).flatten
      = goSplit content '\n' ∧
    goJoin '\n' (goSplit content '\n') = content := by
  set lines := goSplit content '\n' with hlines
  set L := lines.length with hLdef
  have hL : 1 ≤ L := goSplit_length_pos content '\n'
  set k := pageSize.toNat with hkdef
  have hk : 1 ≤ k := by omega
  have hcast : (k : Int) = pageSize := Int.toNat_of_nonneg (by omega)
  obtain ⟨hc1, hc2, hq1⟩ := ceil_div_spec L k hL hk
  set q := (L + k - 1) / k with hqdef
  have htp : pgTotalPages L pageSize = (q : Int) := by
    rw [← hcast]
    exact pgTotalPages_cast L k hL hk
  have hI1 : (L : Int) ≤ (q : Int) * pageSize := by
    rw [← hcast]
    exact_mod_cast hc1
  have hI2 : ((q : Int) - 1) * pageSize < (L : Int) := by
    rw [← hcast]
    have h := hc2
    have e : ((q - 1 : Nat) : Int) = (q : Int) - 1 := by
      push_cast [Nat.cast_sub hq1]
      ring
    rw [← e]
    exact_mod_cast h
  refine ⟨one_le_pgTotalPages L pageSize, ?_, ?_, ?_, ?_, ?_, ?_, ?_⟩
  · rw [htp]
    exact hI1
  · rw [htp]
    exact hI2
  · intro p hp1 hp2
    rw [htp] at hp2
    rw [pageEnd_eq_min]
    have e1 : pageStart p pageSize + pageSize = p * pageSize := by
      unfold pageStart
      ring
    have e2 : pageStart (p + 1) pageSize = p * pageSize := by
      unfold pageStart
      ring
    rw [e1, e2]
    apply min_eq_left
    have hp : p ≤ (q : Int) - 1 := by omega
    have hmul : p * pageSize ≤ ((q : Int) - 1) * pageSize :=
      mul_le_mul_of_nonneg_right hp (by omega)
    exact hmul.trans hI2.le
  · intro p hp1 hp2
    rw [htp] at hp2
    rw [pageEnd_eq_min]
    apply lt_min
    · have hpos : (0 : Int) < pageSize := by omega
      omega
    · have hp : p - 1 ≤ (q : Int) - 1 := by omega
      have hmul : (p - 1) * pageSize ≤ ((q : Int) - 1) * pageSize :=
        mul_le_mul_of_nonneg_right hp (by omega)
      show (p - 1) * pageSize < (L : Int)
      exact lt_of_le_of_lt hmul hI2
  · rw [← hcast]
    exact allPages_eq_chunks content k hk
  · exact natChunks_flatten lines k hk hL
  · exact goJoin_goSplit content '\n'

/-- Witness for C5 at `content = "a\nb\nc"`, `pageSize = 2`: the chunk
concatenation reproduces the line list, and joining reproduces the
content. -/
theorem c5_witness :
    (natChunks (goSplit "a\nb\nc" '\n') (2 : Int).toNat).flatten
        = goSplit "a\nb\nc" '\n' ∧
    goJoin '\n' (goSplit "a\nb\nc" '\n') = "a\nb\nc" :=
  (c5_pagination_round_trip "a\nb\nc" 2 (by decide)).2.2.2.2.2.2

/-- C6: for `pageSize ≥ 1`, `paginate` returns an error exactly when
the page number, clamped up to 1, exceeds the computed total page
count; page numbers below 1 are never rejected; and
`paginate content 0 n` equals `paginate content 1 n` for every content
and every `n` (clamping law). -/
theorem c6_error_iff_page_exceeds_total :
    (∀ (content : String) (page ps : Int), 1 ≤ ps →
      ((∃ e, paginate content page ps = some (Except.error e)) ↔
        pgTotalPages (goSplit content '\n').length ps < pgClampPage page)) ∧
    (∀ (content : String) (page ps : Int), 1 ≤ ps → page < 1 →
      ∀ e, paginate content page ps ≠ some (Except.error e)) ∧
    (∀ (content : String) (ps : Int),
      paginate content 0 ps = paginate content 1 ps) := by
  have hA : ∀ (content : String) (page ps : Int), 1 ≤ ps →
      ((∃ e, paginate content page ps = some (Except.error e)) ↔
        pgTotalPages (goSplit content '\n').length ps < pgClampPage page) := by
    intro content page ps hps
    constructor
    · rintro ⟨e, he⟩
      by_contra hnot
      obtain ⟨s, hs⟩ := paginate_ok content page ps hps (not_lt.1 hnot)
      rw [hs] at he
      simp at he
    · intro hlt
      have hps0 : ¬ ps = 0 := by omega
      have hres : paginate content page ps
          = some (.error ("page " ++ toString (pgClampPage page) ++
            " exceeds total pages " ++
            toString (pgTotalPages (goSplit content '\n').length ps))) := by
        simp only [paginate]
        rw [if_neg hps0, if_pos hlt]
      exact ⟨_, hres⟩
  refine ⟨hA, ?_, ?_⟩
  · intro content page ps hps hpage e he
    have h1 := (hA content page ps hps).1 ⟨e, he⟩
    have h2 : pgClampPage page = 1 := by
      unfold pgClampPage
      rw [if_pos hpage]
    rw [h2] at h1
    exact absurd h1 (not_lt.2 (one_le_pgTotalPages _ _))
  · intro content ps
    have h : pgClampPage 0 = pgClampPage 1 := by decide
    simp only [paginate]
    rw [h]

/-- Witness for C6: page 5 of the one-line content `"x"` at page size 1
is rejected, and page 0 equals page 1 at a concrete input. -/
theorem c6_witness :
    (∃ e, paginate "x" 5 1 = some (Except.error e)) ∧
    paginate "y" 0 7 = paginate "y" 1 7 :=
  ⟨(c6_error_iff_page_exceeds_total.1 "x" 5 1 (by decide)).2 (by decide),
   c6_error_iff_page_exceeds_total.2.2 "y" 7⟩

/-- C9: under the precondition `pageSize ≥ 1` both divisions in
`paginate` are well defined and no runtime fault occurs — `paginate`
always returns a result (`isSome`); and the handler reads `page_size`
with default 1000 and passes any requested value through unchanged,
without clamping it to the declared `[100, 5000]` range. -/
theorem c9_paginate_total_handler_no_clamp :
    (∀ (content : String) (page ps : Int), 1 ≤ ps →
      (paginate content page ps).isSome = true) ∧
    handlerPageSize none = 1000 ∧
    (∀ v : Int, handlerPageSize (some v) = v) := by
  refine ⟨?_, rfl, fun v => rfl⟩
  intro content page ps hps
  have hps0 : ¬ ps = 0 := by omega
  by_cases hgt : pgTotalPages (goSplit content '\n').length ps
      < pgClampPage page
  · simp only [paginate]
    rw [if_neg hps0, if_pos hgt]
    rfl
  · obtain ⟨s, hs⟩ := paginate_ok content page ps hps (not_lt.1 hgt)
    rw [hs]
    rfl

/-- Witness for C9: a concrete paginate call returns a value, and a
requested page size of 7 (outside `[100, 5000]`) reaches `paginate`
unclamped. -/
theorem c9_witness :
    (paginate "a\nb" 2 1).isSome = true ∧
    handlerPageSize none = 1000 ∧ handlerPageSize (some 7) = 7 :=
  ⟨c9_paginate_total_handler_no_clamp.1 "a\nb" 2 1 (by decide),
   c9_paginate_total_handler_no_clamp.2.1,
   c9_paginate_total_handler_no_clamp.2.2 7⟩

/-- C10: the empty content is treated as one line: its line count is 1,
its total page count is 1 for every `pageSize ≥ 1`, and requesting page
1 succeeds (no out-of-range error). -/
theorem c10_empty_content_one_page (ps : Int) (hps : 1 ≤ ps) :
    (goSplit "" '\n').length = 1 ∧
    pgTotalPages (goSplit "" '\n').length ps = 1 ∧
    ∃ s, paginate "" 1 ps = some (Except.ok s) := by
  have h1 : (goSplit "" '\n').length = 1 := rfl
  have h2 : pgTotalPages 1 ps = 1 := by
    simp only [pgTotalPages]
    have he : ((1 : Nat) : Int) + ps - 1 = ps := by
      push_cast
      ring
    rw [he, Int.tdiv_self (by omega : ps ≠ 0)]
    rw [if_neg (by omega : ¬ (1 : Int) < 1)]
  refine ⟨h1, by rw [h1]; exact h2, ?_⟩
  apply paginate_ok "" 1 ps hps
  rw [h1, h2]
  decide

/-- Witness for C10 at the default page size 1000 (the case of the
`empty content` unit test). -/
theorem c10_witness :
    (goSplit "" '\n').length = 1 ∧
    pgTotalPages (goSplit "" '\n').length 1000 = 1 ∧
    ∃ s, paginate "" 1 1000 = some (Except.ok s) :=
  c10_empty_content_one_page 1000 (by decide)

/-! ## Claim C2: the cache-key derivation -/

theorem String_data_inj {s t : String} (h : s.data = t.data) : s = t := by
  cases s
  cases t
  exact congrArg String.mk h

theorem cacheKey_data (d : String) (args : List String) :
    (cacheKey d args).data
      = d.data ++ '|' :: joinWithChar '|' (args.map String.data) := by
  unfold cacheKey goJoin
  rw [String.data_append, String.data_append, List.append_assoc]
  rfl

theorem eq_of_append_bar_eq {x1 x2 r1 r2 : List Char}
    (h1 : '|' ∉ x1) (h2 : '|' ∉ x2)
    (he : x1 ++ '|' :: r1 = x2 ++ '|' :: r2) : x1 = x2 ∧ r1 = r2 := by
  induction x1 generalizing x2 with
  | nil =>
      cases x2 with
      | nil => simpa using he
      | cons c t =>
          simp only [List.nil_append, List.cons_append, List.cons.injEq] at he
          exact absurd (by rw [← he.1]; exact List.mem_cons_self _ _ :
            ('|') ∈ c :: t) h2
  | cons c t ih =>
      cases x2 with
      | nil =>
          simp only [List.cons_append, List.nil_append, List.cons.injEq] at he
          exact absurd (by rw [he.1]; exact List.mem_cons_self _ _ :
            ('|') ∈ c :: t) h1
      | cons c2 t2 =>
          simp only [List.cons_append, List.cons.injEq] at he
          have h1t : '|' ∉ t := fun hm => h1 (List.mem_cons_of_mem _ hm)
          have h2t : '|' ∉ t2 := fun hm => h2 (List.mem_cons_of_mem _ hm)
          obtain ⟨hx, hr⟩ := ih h1t h2t he.2
          exact ⟨by rw [he.1, hx], hr⟩

theorem joinArgs_inj (a1 : List String) : ∀ (a2 : List String),
    (∀ s ∈ a1, '|' ∉ s.data) → (∀ s ∈ a2, '|' ∉ s.data) →
    a1 ≠ [] → a2 ≠ [] →
    joinWithChar '|' (a1.map String.data)
      = joinWithChar '|' (a2.map String.data) →
    a1 = a2 := by
  induction a1 with
  | nil => intro a2 _ _ hne1 _ _; exact absurd rfl hne1
  | cons s1 t1 ih =>
      intro a2 H1 H2 hne1 hne2 he
      cases a2 with
      | nil => exact absurd rfl hne2
      | cons s2 t2 =>
          cases t1 with
          | nil =>
              cases t2 with
              | nil =>
                  have hd : s1.data = s2.data := he
                  rw [String_data_inj hd]
              | cons u2 v2 =>
                  have hd : s1.data = s2.data ++ '|' ::
                      joinWithChar '|' (List.map String.data (u2 :: v2)) := he
                  have hmem : '|' ∈ s1.data := by
                    rw [hd]
                    exact List.mem_append_right _ (List.mem_cons_self _ _)
                  exact absurd hmem (H1 s1 (List.mem_cons_self _ _))
          | cons u1 v1 =>
              cases t2 with
              | nil =>
                  have hd : s2.data = s1.data ++ '|' ::
                      joinWithChar '|' (List.map String.data (u1 :: v1)) :=
                    he.symm
                  have hmem : '|' ∈ s2.data := by
                    rw [hd]
                    exact List.mem_append_right _ (List.mem_cons_self _ _)
                  exact absurd hmem (H2 s2 (List.mem_cons_self _ _))
              | cons u2 v2 =>
                  have hd : s1.data ++ '|' ::
                      joinWithChar '|' (List.map String.data (u1 :: v1))
                        = s2.data ++ '|' ::
                      joinWithChar '|' (List.map String.data (u2 :: v2)) := he
                  obtain ⟨hx, hr⟩ := eq_of_append_bar_eq
                    (H1 s1 (List.mem_cons_self _ _))
                    (H2 s2 (List.mem_cons_self _ _)) hd
                  have hs : s1 = s2 := String_data_inj hx
                  have ht : u1 :: v1 = u2 :: v2 :=
                    ih (u2 :: v2)
                      (fun s hs => H1 s (List.mem_cons_of_mem _ hs))
                      (fun s hs => H2 s (List.mem_cons_of_mem _ hs))
                      (by simp) (by simp) hr
                  rw [hs, ht]

/-- C2 counterexample: the key derivation, as a function of arbitrary
(dir, args) inputs, is not injective — the working directory `"a|b"`
with argument vector `["c"]` and the working directory `"a"` with
argument vector `["b", "c"]` are different inputs producing the same
key `"a|b|c"`. -/
theorem c2_counterexample :
    cacheKey "a|b" ["c"] = cacheKey "a" ["b", "c"] ∧
    ¬ ("a|b" = "a" ∧ (["c"] : List String) = ["b", "c"]) := by
  constructor
  · decide
  · decide

/-- C2 (amended): the key derivation is a pure deterministic function
of the execution-context directory and the ordered argument list, and
it is injective on the inputs whose directory and arguments contain no
occurrence of the separator character `'|'` and whose argument list is
nonempty (in the program the argument vector always contains at least
the package path): under those conditions the derived keys are equal if
and only if the directories and the argument vectors are equal.
Without the separator-freedom restriction injectivity fails
(`c2_counterexample`). -/
theorem c2_cacheKey_injective_on_separator_free
    (d1 d2 : String) (a1 a2 : List String)
    (hd1 : '|' ∉ d1.data) (ha1 : ∀ s ∈ a1, '|' ∉ s.data) (hne1 : a1 ≠ [])
    (hd2 : '|' ∉ d2.data) (ha2 : ∀ s ∈ a2, '|' ∉ s.data) (hne2 : a2 ≠ []) :
    cacheKey d1 a1 = cacheKey d2 a2 ↔ (d1 = d2 ∧ a1 = a2) := by
  constructor
  · intro he
    have hd := congrArg String.data he
    rw [cacheKey_data, cacheKey_data] at hd
    obtain ⟨hx, hr⟩ := eq_of_append_bar_eq hd1 hd2 hd
    exact ⟨String_data_inj hx, joinArgs_inj a1 a2 ha1 ha2 hne1 hne2 hr⟩
  · rintro ⟨rfl, rfl⟩
    rfl

/-- Witness for the amended C2 at concrete separator-free inputs. -/
theorem c2_witness :
    (cacheKey "/w" ["-all", "io"] = cacheKey "/w" ["-all", "io"] ↔
      ("/w" = "/w" ∧ (["-all", "io"] : List String) = ["-all", "io"])) :=
  c2_cacheKey_injective_on_separator_free "/w" "/w" ["-all", "io"]
    ["-all", "io"] (by decide) (by decide) (by decide) (by decide)
    (by decide) (by decide)

/-! ## Claim C7: relative-path resolution -/

theorem String_mk_data (s : String) : String.mk s.data = s := by
  cases s
  rfl

theorem data_dot_slash_append (rel : String) :
    ("./" ++ rel).data = '.' :: '/' :: rel.data := by
  rw [String.data_append]
  rfl

theorem goHasPrefix_dot_append (rel : String) :
    goHasPrefix ("./" ++ rel) "." = true := by
  unfold goHasPrefix
  rw [data_dot_slash_append]
  rfl

theorem dot_slash_append_ne_dot (rel : String) : ("./" ++ rel) ≠ "." := by
  intro h
  have hd := congrArg String.data h
  rw [data_dot_slash_append] at hd
  have := congrArg List.length hd
  simp at this

theorem goTrimPrefix_dot_slash (rel : String) :
    goTrimPrefix ("./" ++ rel) "./" = rel := by
  unfold goTrimPrefix
  have h : goHasPrefix ("./" ++ rel) "./" = true := by
    unfold goHasPrefix
    rw [data_dot_slash_append,
      show ("./" : String).data = ['.', '/'] from rfl]
    simp [List.isPrefixOf]
  rw [h, if_pos rfl, data_dot_slash_append]
  show String.mk rel.data = rel
  exact String_mk_data rel

/-- C7: a reference beginning with `'.'` fails with the
context-required error when no working directory is supplied; with a
working directory whose `go.mod` declares module `M`, resolving `"."`
yields `M` itself, and resolving `"./" ++ rel` yields the path-segment
join of `M` with `rel` (so, for module `example.com/app` and
`./sub/pkg`, the identifier `example.com/app/sub/pkg` — see the
witness). -/
theorem c7_relative_path_resolution
    (fs : String → Option String) (wd content M : String) :
    (∀ p : String, goHasPrefix p "." = true →
      validatePath fs p ""
        = .error "working_dir is required for relative paths (including '.')") ∧
    (wd ≠ "" → fs (wd ++ "/go.mod") = some content →
      readModuleName content = Except.ok M →
      validatePath fs "." wd = .ok M ∧
      ∀ rel : String,
        validatePath fs ("./" ++ rel) wd = .ok (pathJoin M rel)) := by
  constructor
  · intro p hp
    unfold validatePath
    rw [hp, if_pos rfl, if_pos rfl]
  · intro hwd hfs hM
    have h1 : goHasPrefix "." "." = true := by decide
    constructor
    · unfold validatePath
      rw [h1, if_pos rfl, if_neg hwd]
      simp only [hfs, hM]
      simp
    · intro rel
      have h2 : goHasPrefix ("./" ++ rel) "." = true :=
        goHasPrefix_dot_append rel
      have h3 : ("./" ++ rel) ≠ "." := dot_slash_append_ne_dot rel
      unfold validatePath
      rw [h2, if_pos rfl, if_neg hwd]
      simp only [hfs, hM]
      rw [if_neg h3, goTrimPrefix_dot_slash]

/-- Witness for C7 with a filesystem holding
`module example.com/app` in `/w/go.mod`: the context-required error,
the module-root resolution, and the `./sub/pkg` resolution to
`example.com/app/sub/pkg`. -/
theorem c7_witness :
    validatePath
        (fun p => if p = "/w/go.mod" then some "module example.com/app\n"
          else none) "./pkg" ""
      = .error "working_dir is required for relative paths (including '.')" ∧
    validatePath
        (fun p => if p = "/w/go.mod" then some "module example.com/app\n"
          else none) "." "/w"
      = .ok "example.com/app" ∧
    validatePath
        (fun p => if p = "/w/go.mod" then some "module example.com/app\n"
          else none) "./sub/pkg" "/w"
      = .ok "example.com/app/sub/pkg" := by
  have T := c7_relative_path_resolution
    (fun p => if p = "/w/go.mod" then some "module example.com/app\n"
      else none) "/w" "module example.com/app\n" "example.com/app"
  have hfs : (fun p => if p = "/w/go.mod" then some "module example.com/app\n"
      else none) ("/w" ++ "/go.mod") = some "module example.com/app\n" := by
    decide
  have hM : readModuleName "module example.com/app\n"
      = Except.ok "example.com/app" := rfl
  have h2 := T.2 (by decide) hfs hM
  refine ⟨T.1 "./pkg" (by decide), h2.1, ?_⟩
  have h3 := h2.2 "sub/pkg"
  have hj : pathJoin "example.com/app" "sub/pkg" = "example.com/app/sub/pkg" := by
    decide
  rw [show ("./" ++ "sub/pkg" : String) = "./sub/pkg" from by decide] at h3
  rw [h3, hj]

end Godoc
